import Mathlib

/-!
Shallow embedding of the scene-splitting core of `shear` (`src/main.rs`),
the function `split_long_scenes`, together with theorems about the
properties of the splitter stated in the design document.

Machine integers (`usize`) are modelled by `Nat`: `saturating_sub` is the
truncated subtraction of `Nat`, and `Vec::sort` / `Vec::dedup` are
modelled by an ascending stable sort (insertion sort) followed by removal
of consecutive duplicates.  Rust's panicking division is additionally
modelled by an `Option`-valued variant (`split_long_scenes_checked`) that
returns `none` exactly when a division's divisor is zero.
-/

namespace Shear

/-- The intermediate split points pushed for one scene range `[start, e)`:
when `e - start > max_frames` the loop `for j in 1..num_chunks` pushes
`start + j * chunk_size` whenever that value is `< e`, where
`num_chunks = (scene_len + max_frames - 1) / max_frames` and
`chunk_size = scene_len / num_chunks`; otherwise nothing is pushed. -/
def splitPoints (start e max_frames : Nat) : List Nat :=
  let scene_len := e - start
  if scene_len > max_frames then
    let num_chunks := (scene_len + max_frames - 1) / max_frames
    let chunk_size := scene_len / num_chunks
    (List.range' 1 (num_chunks - 1)).filterMap fun j =>
      let split := start + j * chunk_size
      if split < e then some split else none
  else []

/-- Everything pushed for one scene range: `start` itself, followed by the
intermediate split points. -/
def splitRange (start e max_frames : Nat) : List Nat :=
  start :: splitPoints start e max_frames

/-- The body of the `for i in 0..scene_starts.len()` loop: each boundary is
processed against the next boundary, the last one against `total_frames`. -/
def buildRanges : List Nat → Nat → Nat → List Nat
  | [], _, _ => []
  | [s], total_frames, max_frames => splitRange s total_frames max_frames
  | s :: t :: rest, total_frames, max_frames =>
    splitRange s t max_frames ++ buildRanges (t :: rest) total_frames max_frames

/-- Rust's `Vec::dedup`: remove consecutive duplicate elements. -/
def dedup : List Nat → List Nat
  | [] => []
  | [a] => [a]
  | a :: b :: rest => if a = b then dedup (b :: rest) else a :: dedup (b :: rest)

/-- The splitter `split_long_scenes` of `src/main.rs`: build all ranges,
then sort ascending and remove consecutive duplicates. -/
def split_long_scenes (scene_starts : List Nat) (total_frames max_frames : Nat) : List Nat :=
  dedup (List.insertionSort (· ≤ ·) (buildRanges scene_starts total_frames max_frames))

/-- The consecutive scene ranges determined by the input boundaries:
each boundary paired with the next, the last paired with `total_frames`. -/
def rangePairs (scene_starts : List Nat) (total_frames : Nat) : List (Nat × Nat) :=
  match scene_starts with
  | [] => []
  | [s] => [(s, total_frames)]
  | s :: t :: rest => (s, t) :: rangePairs (t :: rest) total_frames

/-- Whether some scene range of the input has positive length. -/
def hasPosRange (scene_starts : List Nat) (total_frames : Nat) : Bool :=
  match scene_starts with
  | [] => false
  | [s] => decide (s < total_frames)
  | s :: t :: rest => decide (s < t) || hasPosRange (t :: rest) total_frames

/-- Fault-sensitive variant of processing one range: Rust's `/` panics on a
zero divisor, so the computations `scene_len / max_frames` (inside
`num_chunks`) and `scene_len / num_chunks` are guarded and yield `none`
when their divisor is zero. -/
def splitRangeChecked (start e max_frames : Nat) : Option (List Nat) :=
  let scene_len := e - start
  if scene_len > max_frames then
    if max_frames = 0 then none
    else
      let num_chunks := (scene_len + max_frames - 1) / max_frames
      if num_chunks = 0 then none
      else
        let chunk_size := scene_len / num_chunks
        some (start :: ((List.range' 1 (num_chunks - 1)).filterMap fun j =>
          let split := start + j * chunk_size
          if split < e then some split else none))
  else some [start]

/-- Fault-sensitive variant of the range-building loop: a fault in any
range propagates. -/
def buildRangesChecked : List Nat → Nat → Nat → Option (List Nat)
  | [], _, _ => some []
  | [s], total_frames, max_frames => splitRangeChecked s total_frames max_frames
  | s :: t :: rest, total_frames, max_frames =>
    match splitRangeChecked s t max_frames,
        buildRangesChecked (t :: rest) total_frames max_frames with
    | some l, some ls => some (l ++ ls)
    | _, _ => none

/-- Fault-sensitive variant of `split_long_scenes`: `none` exactly when the
Rust original would fault on a division by zero. -/
def split_long_scenes_checked (scene_starts : List Nat) (total_frames max_frames : Nat) :
    Option (List Nat) :=
  (buildRangesChecked scene_starts total_frames max_frames).map
    fun r => dedup (List.insertionSort (· ≤ ·) r)

theorem splitPoints_of_le {s e m : Nat} (h : e - s ≤ m) : splitPoints s e m = [] := by
  unfold splitPoints
  rw [if_neg (by omega)]

theorem splitRange_of_le {s e m : Nat} (h : e - s ≤ m) : splitRange s e m = [s] := by
  rw [splitRange, splitPoints_of_le h]

theorem splitPoints_zero (s e : Nat) : splitPoints s e 0 = [] := by
  simp only [splitPoints]
  split
  · simp [Nat.div_zero]
  · rfl

theorem splitPoints_mem {s e m x : Nat} (hx : x ∈ splitPoints s e m) :
    s ≤ x ∧ x < e := by
  simp only [splitPoints] at hx
  split at hx
  · simp only [List.mem_filterMap] at hx
    obtain ⟨j, _, hjx⟩ := hx
    split at hjx
    · cases hjx
      exact ⟨Nat.le_add_right _ _, by assumption⟩
    · cases hjx
  · cases hx

theorem splitRange_mem {s e m x : Nat} (hx : x ∈ splitRange s e m) :
    x = s ∨ (s ≤ x ∧ x < e) := by
  rcases List.mem_cons.1 hx with h | h
  · exact Or.inl h
  · exact Or.inr (splitPoints_mem h)

theorem ceil_add_le_mul {n m : Nat} (hn : 1 ≤ n) (hm : 1 ≤ m) : n + m - 1 ≤ n * m := by
  obtain ⟨a, rfl⟩ : ∃ a, n = a + 1 := ⟨n - 1, by omega⟩
  obtain ⟨b, rfl⟩ : ∃ b, m = b + 1 := ⟨m - 1, by omega⟩
  have h : (a + 1) * (b + 1) = a * b + a + b + 1 := by ring
  omega

theorem num_chunks_ge_two {n m : Nat} (hm : 1 ≤ m) (hn : m < n) :
    2 ≤ (n + m - 1) / m := by
  rw [Nat.le_div_iff_mul_le (by omega)]
  omega

theorem num_chunks_le {n m : Nat} (hm : 1 ≤ m) (hn : m < n) :
    (n + m - 1) / m ≤ n := by
  calc (n + m - 1) / m ≤ n * m / m :=
        Nat.div_le_div_right (ceil_add_le_mul (by omega) hm)
    _ = n := Nat.mul_div_cancel n hm

theorem chunk_size_pos {n m : Nat} (hm : 1 ≤ m) (hn : m < n) :
    1 ≤ n / ((n + m - 1) / m) := by
  rw [Nat.one_le_div_iff (by have := num_chunks_ge_two hm hn; omega)]
  exact num_chunks_le hm hn

theorem n_le_chunks_mul {n m : Nat} (hm : 1 ≤ m) (hn : m < n) :
    n ≤ m * ((n + m - 1) / m) := by
  have h1 := Nat.div_add_mod (n + m - 1) m
  have h2 := Nat.mod_lt (n + m - 1) (show 0 < m by omega)
  omega

theorem chunks_mul_le {n m : Nat} : ((n + m - 1) / m) * (n / ((n + m - 1) / m)) ≤ n :=
  Nat.mul_div_le n ((n + m - 1) / m)

theorem chunk_size_le {n m : Nat} (hm : 1 ≤ m) (hn : m < n) :
    n / ((n + m - 1) / m) ≤ m := by
  have hk2 := num_chunks_ge_two hm hn
  have h1 : ((n + m - 1) / m) * (n / ((n + m - 1) / m)) ≤ ((n + m - 1) / m) * m := by
    calc ((n + m - 1) / m) * (n / ((n + m - 1) / m)) ≤ n := chunks_mul_le
      _ ≤ m * ((n + m - 1) / m) := n_le_chunks_mul hm hn
      _ = ((n + m - 1) / m) * m := Nat.mul_comm _ _
  exact Nat.le_of_mul_le_mul_left h1 (by omega)

theorem filterMap_guard_eq_map (f : Nat → Nat) (e : Nat) (l : List Nat)
    (h : ∀ j ∈ l, f j < e) :
    (l.filterMap fun j => if f j < e then some (f j) else none) = l.map f := by
  induction l with
  | nil => rfl
  | cons a l ih =>
    rw [List.filterMap_cons, List.map_cons, if_pos (h a (List.mem_cons_self a l)),
      ih fun j hj => h j (List.mem_cons_of_mem a hj)]

theorem splitPoints_eq_map {s e m : Nat} (hm : 1 ≤ m) (h : m < e - s) :
    splitPoints s e m =
      (List.range' 1 ((e - s + m - 1) / m - 1)).map
        (fun j => s + j * ((e - s) / ((e - s + m - 1) / m))) := by
  unfold splitPoints
  rw [if_pos h]
  refine filterMap_guard_eq_map _ _ _ ?_
  intro j hj
  rw [List.mem_range'_1] at hj
  have hk2 := num_chunks_ge_two hm h
  have hc1 := chunk_size_pos hm h
  have hmul : ((e - s + m - 1) / m) * ((e - s) / ((e - s + m - 1) / m)) ≤ e - s :=
    chunks_mul_le
  have hjm : j * ((e - s) / ((e - s + m - 1) / m)) ≤
      ((e - s + m - 1) / m - 1) * ((e - s) / ((e - s + m - 1) / m)) :=
    Nat.mul_le_mul_right _ (by omega)
  have hsub : ((e - s + m - 1) / m - 1) * ((e - s) / ((e - s + m - 1) / m)) =
      ((e - s + m - 1) / m) * ((e - s) / ((e - s + m - 1) / m)) -
        ((e - s) / ((e - s + m - 1) / m)) := by
    rw [Nat.sub_mul, Nat.one_mul]
  omega

theorem splitRange_pairwise (s e m : Nat) :
    List.Pairwise (· < ·) (splitRange s e m) := by
  rcases Nat.eq_zero_or_pos m with hm | hm
  · subst hm
    rw [splitRange, splitPoints_zero]
    exact List.pairwise_singleton _ _
  · by_cases h : m < e - s
    · rw [splitRange, splitPoints_eq_map hm h]
      have hc1 := chunk_size_pos hm h
      refine List.pairwise_cons.2 ⟨?_, ?_⟩
      · intro x hx
        rw [List.mem_map] at hx
        obtain ⟨j, hj, rfl⟩ := hx
        rw [List.mem_range'_1] at hj
        have h1 : 1 * 1 ≤ j * ((e - s) / ((e - s + m - 1) / m)) :=
          Nat.mul_le_mul hj.1 hc1
        omega
      · rw [List.pairwise_map]
        refine (List.pairwise_lt_range' 1 _ 1 (by omega)).imp ?_
        intro a b hab
        have := (Nat.mul_lt_mul_right hc1).2 hab
        omega
    · rw [splitRange_of_le (by omega)]
      exact List.pairwise_singleton _ _

theorem buildRanges_mem_lower :
    ∀ {ss : List Nat} {tf m x : Nat}, x ∈ buildRanges ss tf m → ∃ u ∈ ss, u ≤ x := by
  intro ss
  induction ss with
  | nil => intro tf m x hx; cases hx
  | cons s rest ih =>
    intro tf m x hx
    cases rest with
    | nil =>
      rw [buildRanges] at hx
      rcases splitRange_mem hx with rfl | ⟨h1, _⟩
      · exact ⟨x, List.mem_singleton.2 rfl, Nat.le_refl x⟩
      · exact ⟨s, List.mem_singleton.2 rfl, h1⟩
    | cons t rest' =>
      rw [buildRanges] at hx
      rcases List.mem_append.1 hx with h | h
      · rcases splitRange_mem h with rfl | ⟨h1, _⟩
        · exact ⟨x, List.mem_cons_self _ _, Nat.le_refl x⟩
        · exact ⟨s, List.mem_cons_self _ _, h1⟩
      · obtain ⟨u, hu, hux⟩ := ih h
        exact ⟨u, List.mem_cons_of_mem s hu, hux⟩

theorem buildRanges_pairwise :
    ∀ {ss : List Nat} (tf m : Nat), List.Pairwise (· < ·) ss →
      List.Pairwise (· < ·) (buildRanges ss tf m) := by
  intro ss
  induction ss with
  | nil => intro tf m _; exact List.Pairwise.nil
  | cons s rest ih =>
    intro tf m hss
    cases rest with
    | nil => exact splitRange_pairwise s tf m
    | cons t rest' =>
      rw [buildRanges]
      rw [List.pairwise_append]
      obtain ⟨hhead, htail⟩ := List.pairwise_cons.1 hss
      refine ⟨splitRange_pairwise s t m, ih tf m htail, ?_⟩
      intro x hx y hy
      have hxt : x < t := by
        rcases splitRange_mem hx with rfl | ⟨_, h2⟩
        · exact hhead t (List.mem_cons_self _ _)
        · exact h2
      obtain ⟨u, hu, huy⟩ := buildRanges_mem_lower hy
      have htu : t ≤ u := by
        rcases List.mem_cons.1 hu with rfl | hu'
        · exact Nat.le_refl u
        · exact Nat.le_of_lt ((List.pairwise_cons.1 htail).1 u hu')
      omega

theorem dedup_eq_self : ∀ {l : List Nat}, List.Pairwise (· < ·) l → dedup l = l := by
  intro l
  induction l with
  | nil => intro _; rfl
  | cons a l ih =>
    intro h
    cases l with
    | nil => rfl
    | cons b l' =>
      obtain ⟨hhead, htail⟩ := List.pairwise_cons.1 h
      rw [dedup, if_neg (Nat.ne_of_lt (hhead b (List.mem_cons_self _ _))), ih htail]

/-- For a strictly increasing input, the final sort-and-dedup pass is the
identity: the splitter's output is exactly the concatenation of the
per-range outputs. -/
theorem split_long_scenes_eq_buildRanges {ss : List Nat} {tf m : Nat}
    (hss : List.Sorted (· < ·) ss) :
    split_long_scenes ss tf m = buildRanges ss tf m := by
  have hp := buildRanges_pairwise tf m hss
  rw [split_long_scenes,
    List.Sorted.insertionSort_eq (hp.imp fun h => Nat.le_of_lt h),
    dedup_eq_self hp]

theorem mem_buildRanges_self :
    ∀ {ss : List Nat} {tf m x : Nat}, x ∈ ss → x ∈ buildRanges ss tf m := by
  intro ss
  induction ss with
  | nil => intro tf m x hx; cases hx
  | cons s rest ih =>
    intro tf m x hx
    cases rest with
    | nil =>
      rw [buildRanges]
      rw [List.mem_singleton.1 hx]
      exact List.mem_cons_self _ _
    | cons t rest' =>
      rw [buildRanges, List.mem_append]
      rcases List.mem_cons.1 hx with rfl | hx'
      · exact Or.inl (List.mem_cons_self _ _)
      · exact Or.inr (ih hx')

theorem length_le_buildRanges :
    ∀ (ss : List Nat) (tf m : Nat), ss.length ≤ (buildRanges ss tf m).length := by
  intro ss
  induction ss with
  | nil => intro tf m; exact Nat.le_refl 0
  | cons s rest ih =>
    intro tf m
    cases rest with
    | nil => simp [buildRanges, splitRange]
    | cons t rest' =>
      rw [buildRanges, List.length_append, List.length_cons, splitRange, List.length_cons]
      have h1 := ih tf m
      have h2 : (t :: rest').length = rest'.length + 1 := List.length_cons t rest'
      have h3 : (s :: splitPoints s t m).length = (splitPoints s t m).length + 1 :=
        List.length_cons _ _
      omega

theorem buildRanges_eq_self :
    ∀ {ss : List Nat} {tf m : Nat},
      (∀ p ∈ rangePairs ss tf, p.2 - p.1 ≤ m) → buildRanges ss tf m = ss := by
  intro ss
  induction ss with
  | nil => intro tf m _; rfl
  | cons s rest ih =>
    intro tf m h
    cases rest with
    | nil =>
      rw [buildRanges,
        splitRange_of_le (h (s, tf) (by rw [rangePairs]; exact List.mem_singleton.2 rfl))]
    | cons t rest' =>
      rw [buildRanges,
        splitRange_of_le (h (s, t) (by rw [rangePairs]; exact List.mem_cons_self _ _)),
        ih fun p hp => h p (by rw [rangePairs]; exact List.mem_cons_of_mem _ hp)]
      rfl

theorem buildRanges_interior :
    ∀ {ss : List Nat} {tf m x : Nat}, x ∈ buildRanges ss tf m → x ∉ ss →
      ∃ p ∈ rangePairs ss tf, p.1 < x ∧ x < p.2 := by
  intro ss
  induction ss with
  | nil => intro tf m x hx _; cases hx
  | cons s rest ih =>
    intro tf m x hx hnot
    cases rest with
    | nil =>
      rw [buildRanges] at hx
      rcases splitRange_mem hx with rfl | ⟨h1, h2⟩
      · exact absurd (List.mem_singleton.2 rfl) hnot
      · have hxs : x ≠ s := fun hh => hnot (by rw [hh]; exact List.mem_singleton.2 rfl)
        exact ⟨(s, tf), by rw [rangePairs]; exact List.mem_singleton.2 rfl,
          by omega, h2⟩
    | cons t rest' =>
      rw [buildRanges] at hx
      rcases List.mem_append.1 hx with h | h
      · rcases splitRange_mem h with rfl | ⟨h1, h2⟩
        · exact absurd (List.mem_cons_self _ _) hnot
        · have hxs : x ≠ s := fun hh => hnot (by rw [hh]; exact List.mem_cons_self _ _)
          exact ⟨(s, t), by rw [rangePairs]; exact List.mem_cons_self _ _,
            by omega, h2⟩
      · have hnot' : x ∉ t :: rest' := fun hh => hnot (List.mem_cons_of_mem s hh)
        obtain ⟨p, hp, hpx⟩ := ih h hnot'
        exact ⟨p, by rw [rangePairs]; exact List.mem_cons_of_mem _ hp, hpx⟩

/-- C7: Empty input yields empty output: for every total_frames and
max_frames, split_long_scenes([], total_frames, max_frames) returns the
empty sequence. -/
theorem c7_empty_input (total_frames max_frames : Nat) :
    split_long_scenes [] total_frames max_frames = [] := rfl

/-- C8: Concrete mixed scenario: split_long_scenes([0,100,600], 900, 200)
returns exactly [0,100,266,432,600,750]. -/
theorem c8_mixed_scenario :
    split_long_scenes [0, 100, 600] 900 200 = [0, 100, 266, 432, 600, 750] := by decide

/-- C1 (failing-input evaluation): at scene_starts = [0], total_frames = 5,
max_frames = 2 the input gap (5) exceeds max_frames, yet the output is
[0, 1, 2] and the final gap from the last output element to total_frames
is 3 > max_frames, contradicting the bounded-length postcondition. -/
theorem c1_failing_eval :
    split_long_scenes [0] 5 2 = [0, 1, 2] ∧ 5 - 0 > 2 ∧ 5 - 2 > 2 := by decide

/-- C3 (failing-input evaluation): applying the splitter twice at
scene_starts = [0], total_frames = 5, max_frames = 2 gives
[0, 1, 2, 3] ≠ [0, 1, 2], contradicting idempotence. -/
theorem c3_failing_eval :
    split_long_scenes [0] 5 2 = [0, 1, 2] ∧
      split_long_scenes [0, 1, 2] 5 2 = [0, 1, 2, 3] := by decide

/-- C4: Monotonic superset: for every strictly increasing scene_starts and
every max_frames ≥ 1, the output of split_long_scenes is strictly
increasing (hence duplicate-free), contains every element of scene_starts,
and is at least as long as scene_starts. -/
theorem c4_monotonic_superset (scene_starts : List Nat) (total_frames max_frames : Nat)
    (hss : List.Sorted (· < ·) scene_starts) (hm : 1 ≤ max_frames) :
    List.Sorted (· < ·) (split_long_scenes scene_starts total_frames max_frames) ∧
      (∀ x ∈ scene_starts, x ∈ split_long_scenes scene_starts total_frames max_frames) ∧
      scene_starts.length ≤ (split_long_scenes scene_starts total_frames max_frames).length := by
  rw [split_long_scenes_eq_buildRanges hss]
  exact ⟨buildRanges_pairwise total_frames max_frames hss,
    fun x hx => mem_buildRanges_self hx,
    length_le_buildRanges scene_starts total_frames max_frames⟩

theorem c4_witness :
    List.Sorted (· < ·) (split_long_scenes [0, 100, 600] 900 200) ∧
      (∀ x ∈ [0, 100, 600], x ∈ split_long_scenes [0, 100, 600] 900 200) ∧
      ([0, 100, 600] : List Nat).length ≤ (split_long_scenes [0, 100, 600] 900 200).length :=
  c4_monotonic_superset [0, 100, 600] 900 200 (by decide) (by decide)

/-- C5: No-op identity when already short: for every strictly increasing
scene_starts in which every gap between consecutive elements, and the
final gap from the last element to total_frames, is ≤ max_frames
(max_frames ≥ 1), split_long_scenes returns exactly the input sequence. -/
theorem c5_noop_when_short (scene_starts : List Nat) (total_frames max_frames : Nat)
    (hss : List.Sorted (· < ·) scene_starts) (hm : 1 ≤ max_frames)
    (hgaps : ∀ p ∈ rangePairs scene_starts total_frames, p.2 - p.1 ≤ max_frames) :
    split_long_scenes scene_starts total_frames max_frames = scene_starts := by
  rw [split_long_scenes_eq_buildRanges hss, buildRanges_eq_self hgaps]

theorem c5_witness : split_long_scenes [0, 100, 200] 300 150 = [0, 100, 200] :=
  c5_noop_when_short [0, 100, 200] 300 150 (by decide) (by decide) (by decide)

/-- C6: Exact-fit boundary case: a range whose length equals max_frames
exactly receives no split point (splitting happens only when the length is
strictly greater); in particular split_long_scenes([s], s + max_frames,
max_frames) = [s]. -/
theorem c6_exact_fit :
    (∀ s e max_frames : Nat, e - s = max_frames → splitRange s e max_frames = [s]) ∧
      ∀ s max_frames : Nat, split_long_scenes [s] (s + max_frames) max_frames = [s] := by
  constructor
  · intro s e m h
    exact splitRange_of_le (Nat.le_of_eq h)
  · intro s m
    rw [split_long_scenes_eq_buildRanges (List.sorted_singleton s), buildRanges]
    exact splitRange_of_le (by omega)

theorem c6_witness :
    splitRange 2 9 7 = [2] ∧ split_long_scenes [3] (3 + 5) 5 = [3] :=
  ⟨c6_exact_fit.1 2 9 7 (by decide), c6_exact_fit.2 3 5⟩

/-- C10: Inserted points are strictly interior: for every strictly
increasing scene_starts and max_frames ≥ 1, every output element of
split_long_scenes that is not an input element lies strictly between two
consecutive input boundaries (or strictly between the last input boundary
and total_frames). -/
theorem c10_inserted_interior (scene_starts : List Nat) (total_frames max_frames : Nat)
    (hss : List.Sorted (· < ·) scene_starts) (hm : 1 ≤ max_frames) :
    ∀ x ∈ split_long_scenes scene_starts total_frames max_frames, x ∉ scene_starts →
      ∃ p ∈ rangePairs scene_starts total_frames, p.1 < x ∧ x < p.2 := by
  rw [split_long_scenes_eq_buildRanges hss]
  intro x hx hnot
  exact buildRanges_interior hx hnot

theorem c10_witness :
    ∃ p ∈ rangePairs [0] 5, p.1 < 1 ∧ 1 < p.2 :=
  c10_inserted_interior [0] 5 2 (by decide) (by decide) 1 (by decide) (by decide)

theorem splitRangeChecked_eq {s e m : Nat} (hm : 1 ≤ m) :
    splitRangeChecked s e m = some (splitRange s e m) := by
  simp only [splitRangeChecked, splitRange, splitPoints]
  by_cases h : e - s > m
  · have hk1 : 1 ≤ (e - s + m - 1) / m := by
      rw [Nat.one_le_div_iff (by omega)]
      omega
    rw [if_pos h, if_pos h, if_neg (show ¬ m = 0 by omega),
      if_neg (show ¬ (e - s + m - 1) / m = 0 by omega)]
  · rw [if_neg h, if_neg h]

theorem buildRangesChecked_eq :
    ∀ {ss : List Nat} {tf m : Nat}, 1 ≤ m →
      buildRangesChecked ss tf m = some (buildRanges ss tf m) := by
  intro ss
  induction ss with
  | nil => intro tf m _; rfl
  | cons s rest ih =>
    intro tf m hm
    cases rest with
    | nil => rw [buildRangesChecked, buildRanges, splitRangeChecked_eq hm]
    | cons t rest' =>
      rw [buildRangesChecked, buildRanges, splitRangeChecked_eq hm, ih hm]

theorem splitRangeChecked_zero_none {s e : Nat} (h : s < e) :
    splitRangeChecked s e 0 = none := by
  simp only [splitRangeChecked]
  rw [if_pos (by omega : e - s > 0)]
  simp

theorem splitRangeChecked_zero_some {s e : Nat} (h : ¬ s < e) :
    splitRangeChecked s e 0 = some [s] := by
  simp only [splitRangeChecked]
  rw [if_neg (by omega : ¬ e - s > 0)]

theorem buildRangesChecked_zero_none :
    ∀ {ss : List Nat} {tf : Nat}, hasPosRange ss tf = true →
      buildRangesChecked ss tf 0 = none := by
  intro ss
  induction ss with
  | nil => intro tf h; cases h
  | cons s rest ih =>
    intro tf h
    cases rest with
    | nil =>
      rw [hasPosRange, decide_eq_true_iff] at h
      rw [buildRangesChecked, splitRangeChecked_zero_none h]
    | cons t rest' =>
      rw [hasPosRange, Bool.or_eq_true, decide_eq_true_iff] at h
      rw [buildRangesChecked]
      by_cases hst : s < t
      · rw [splitRangeChecked_zero_none hst]
      · have h2 : hasPosRange (t :: rest') tf = true := by
          rcases h with h | h
          · omega
          · exact h
        rw [splitRangeChecked_zero_some hst, ih h2]

/-- C9: Totality under the max_frames ≥ 1 precondition: for every
scene_starts (however malformed) and every total_frames, if max_frames ≥ 1
the fault-sensitive evaluation encounters no zero divisor and returns the
value of split_long_scenes; when max_frames = 0 and some range has
positive length, the division computing num_chunks has divisor zero. -/
theorem c9_totality :
    (∀ (scene_starts : List Nat) (total_frames max_frames : Nat), 1 ≤ max_frames →
        split_long_scenes_checked scene_starts total_frames max_frames =
          some (split_long_scenes scene_starts total_frames max_frames)) ∧
      ∀ (scene_starts : List Nat) (total_frames : Nat),
        hasPosRange scene_starts total_frames = true →
          split_long_scenes_checked scene_starts total_frames 0 = none := by
  constructor
  · intro ss tf m hm
    rw [split_long_scenes_checked, buildRangesChecked_eq hm, Option.map_some']
    rfl
  · intro ss tf h
    rw [split_long_scenes_checked, buildRangesChecked_zero_none h, Option.map_none']

theorem c9_witness :
    split_long_scenes_checked [7, 3] 5 2 = some (split_long_scenes [7, 3] 5 2) ∧
      split_long_scenes_checked [0] 5 0 = none :=
  ⟨c9_totality.1 [7, 3] 5 2 (by decide), c9_totality.2 [0] 5 (by decide)⟩

theorem map_range'_getLastD (f : Nat → Nat) {len : Nat} (h : 1 ≤ len) (d : Nat) :
    ((List.range' 1 len).map f).getLastD d = f len := by
  obtain ⟨l', rfl⟩ : ∃ l', len = l' + 1 := ⟨len - 1, by omega⟩
  rw [List.range'_1_concat, List.map_append]
  simp only [List.map_cons, List.map_nil]
  rw [List.getLastD_concat, Nat.add_comm]

theorem splitRange_getLastD {s e m : Nat} (hm : 1 ≤ m) (h : m < e - s) :
    (splitRange s e m).getLastD 0 =
      s + ((e - s + m - 1) / m - 1) * ((e - s) / ((e - s + m - 1) / m)) := by
  rw [splitRange, splitPoints_eq_map hm h, List.getLastD_cons,
    map_range'_getLastD _ (by have := num_chunks_ge_two hm h; omega) s]

theorem last_chunk_bounds {n k c s : Nat} (hk : 1 ≤ k) (hc : 1 ≤ c)
    (hdm : k * c + n % k = n) (hr : n % k < k) :
    c ≤ (s + n) - (s + (k - 1) * c) ∧ (s + n) - (s + (k - 1) * c) ≤ c + k - 1 := by
  obtain ⟨k', rfl⟩ : ∃ k', k = k' + 1 := ⟨k - 1, by omega⟩
  have h1 : (k' + 1) * c = k' * c + c := by rw [Nat.add_mul, Nat.one_mul]
  have h2 : (k' + 1 - 1) * c = k' * c := by simp
  rw [h2]
  omega

/-- C2 (amended): for every range with scene_len > max_frames ≥ 1, with
num_chunks = ceil(scene_len / max_frames) and chunk_size =
floor(scene_len / num_chunks), the last chunk of the split range — from
the last output element of split_long_scenes on the single-range input to
the range's end — has length between chunk_size and chunk_size +
num_chunks − 1 frames (it need not stay below max_frames). -/
theorem c2_amended (s n m k c : Nat) (hm : 1 ≤ m) (hn : m < n)
    (hk : k = (n + m - 1) / m) (hc : c = n / k) :
    (split_long_scenes [s] (s + n) m).getLastD 0 = s + (k - 1) * c ∧
      c ≤ (s + n) - (s + (k - 1) * c) ∧
      (s + n) - (s + (k - 1) * c) ≤ c + k - 1 := by
  subst hk hc
  have hk2 : 2 ≤ (n + m - 1) / m := num_chunks_ge_two hm hn
  have hc1 : 1 ≤ n / ((n + m - 1) / m) := chunk_size_pos hm hn
  have hlast : (split_long_scenes [s] (s + n) m).getLastD 0 =
      s + ((n + m - 1) / m - 1) * (n / ((n + m - 1) / m)) := by
    rw [split_long_scenes_eq_buildRanges (List.sorted_singleton s), buildRanges]
    have h1 := splitRange_getLastD hm (show m < (s + n) - s by omega)
    simpa only [Nat.add_sub_cancel_left] using h1
  refine ⟨hlast, ?_⟩
  exact last_chunk_bounds (by omega) hc1
    (Nat.div_add_mod n ((n + m - 1) / m))
    (Nat.mod_lt n (by omega))

/-- C2 (counterexample): at scene_starts = [0], total_frames = 5
(scene_len = 5), max_frames = 2 the code computes num_chunks = 3 and
chunk_size = 1 and returns [0, 1, 2]; the last chunk runs from 2 to 5, so
its length is 3, which is not strictly less than max_frames = 2 (it even
exceeds it). -/
theorem c2_counterexample :
    (5 + 2 - 1) / 2 = 3 ∧ 5 / 3 = 1 ∧
      split_long_scenes [0] (0 + 5) 2 = [0, 1, 2] ∧
      (0 + 5) - (split_long_scenes [0] (0 + 5) 2).getLastD 0 = 3 ∧
      ¬ ((0 + 5) - (split_long_scenes [0] (0 + 5) 2).getLastD 0 < 2) := by decide

theorem c2_witness :
    (split_long_scenes [0] (0 + 5) 2).getLastD 0 = 0 + (3 - 1) * 1 ∧
      1 ≤ (0 + 5) - (0 + (3 - 1) * 1) ∧
      (0 + 5) - (0 + (3 - 1) * 1) ≤ 1 + 3 - 1 :=
  c2_amended 0 5 2 3 1 (by decide) (by decide) (by decide) (by decide)

end Shear
